import Mathlib

/-!
Shallow embedding of `src/pulser/simresults.py` (class `SimulationResults`).

Conventions of the embedding:
* complex amplitudes are pairs of rationals; exact arithmetic stands in for
  the floating-point arithmetic of numpy;
* `qutip.expect` is an external collaborator and is passed in as a function
  parameter `ev`;
* the multinomial draw `np.random.multinomial(N_samples, weights)` is
  nondeterministic, so the drawn count vector `dist` is an argument and
  theorems hypothesise `Multinomial weights N_samples dist`, the
  characteristic property of every vector numpy can return;
* exceptions are modelled with `Except`; message payloads are elided and
  only the exception class is kept.
-/

/-- A complex amplitude re + im·i with rational coordinates. -/
structure Cplx where
  re : ℚ
  im : ℚ
deriving DecidableEq

/-- `np.abs(z)**2`: the squared magnitude of an amplitude. -/
def Cplx.normSq (z : Cplx) : ℚ := z.re * z.re + z.im * z.im

/-- The Python exception classes raised in `simresults.py`. -/
inductive SimError where
  | typeError
  | valueError
  | notImplementedError
deriving DecidableEq

/-- The `SimulationResults` object (`__init__`, lines 27-46): simulated state
trajectory plus register metadata. -/
structure SimulationResults where
  states : List (List Cplx)
  dim : Nat
  size : Nat
  basis_name : String
  meas_basis : Option String

/-- Fuel-bounded binary length: `sizeAux fuel n` is the number of binary
digits of `n`, provided `n ≤ fuel`. -/
def sizeAux : Nat → Nat → Nat
  | 0, _ => 0
  | fuel + 1, n => if n = 0 then 0 else sizeAux fuel (n / 2) + 1

/-- Number of binary digits of `n` (0 for 0). -/
def bitLen (n : Nat) : Nat := sizeAux n n

/-- Big-endian binary digits of `k`, exactly `width` of them (the value of
`np.binary_repr(k, width)` whenever `k < 2 ^ width`). -/
def bitsBE : Nat → Nat → List Nat
  | _, 0 => []
  | k, m + 1 => k / 2 ^ m % 2 :: bitsBE (k % 2 ^ m) m

/-- `np.binary_repr(k, width)` as a digit list: big-endian binary digits,
zero-padded to `width`; numpy widens beyond `width` when `k` does not fit. -/
def binRepr (k width : Nat) : List Nat := bitsBE k (max width (bitLen k))

/-- Binary digit rendered as the character numpy prints. -/
def bitChar (b : Nat) : Char := if b = 1 then '1' else '0'

/-- `np.binary_repr(k, width)` as the '0'/'1' string used for dictionary keys. -/
def binReprStr (k width : Nat) : String := ⟨(binRepr k width).map bitChar⟩

/-- The Python string `'0' * n`. -/
def zeroString (n : Nat) : String := ⟨List.replicate n '0'⟩

/-- Per-axis level selection (lines 124-128): a '0' bit appends the slice
`ex_one` (given here as the list of its indices), a '1' bit appends the single
index `one_state`. -/
def axisSel (one_state : Nat) (ex_one : List Nat) (b : Nat) : List Nat :=
  if b = 0 then ex_one else [one_state]

/-- All index tuples addressed by `probs[tuple(ind)]`: the Cartesian product
of the per-axis selections. -/
def indexTuples : List (List Nat) → List (List Nat)
  | [] => [[]]
  | s :: rest => s.flatMap fun i => (indexTuples rest).map fun t => i :: t

/-- Row-major flat index of tuple `t` into the `[3]*N`-reshaped probability
tensor, starting from an accumulated prefix `acc`. -/
def flatIdx (acc : Nat) (t : List Nat) : Nat := t.foldl (fun a i => 3 * a + i) acc

/-- Sum of `p` over the flat indices addressed by the selections `sels`,
below the row-major prefix `acc` (proof helper for the tensor sums). -/
def tupleSum (p : Nat → ℚ) (sels : List (List Nat)) (acc : Nat) : ℚ :=
  ((indexTuples sels).map fun t => p (flatIdx acc t)).sum

/-- Lines 122-133: the weight appended for `dec_val = k`, namely
`np.sum(probs[tuple(ind)])` where `ind` selects `ex_one` on the '0' bits and
`one_state` on the '1' bits of `np.binary_repr(k, width=N)`. -/
def dim3Weight (one_state : Nat) (ex_one : List Nat) (N : Nat) (p : List ℚ)
    (k : Nat) : ℚ :=
  ((indexTuples ((binRepr k N).map (axisSel one_state ex_one))).map
    (fun t => p.getD (flatIdx 0 t) 0)).sum

/-- `probs = np.abs(self.states[-1])**2` (line 102): squared magnitudes of the
final state's amplitudes. -/
def finalProbs (rs : SimulationResults) : List ℚ :=
  (rs.states.getLastD []).map Cplx.normSq

/-- Lines 88-96: the measurement basis actually used — the explicit argument,
or the stored default when the argument is left out. -/
def resolveBasis (rs : SimulationResults) (meas_basis : Option String) :
    Option String :=
  match meas_basis with
  | none => rs.meas_basis
  | some b => some b

/-- Lines 88-139 up to the multinomial draw: basis resolution and validation,
then the weight vector handed to `np.random.multinomial`. `.ok none` encodes
the dim-2 basis-mismatch branch (line 110), which returns its dictionary
without drawing. -/
def sampleWeights (rs : SimulationResults) (meas_basis : Option String) :
    Except SimError (Option (List ℚ)) :=
  match resolveBasis rs meas_basis with
  | none => .error .valueError
  | some mb =>
    if ¬ (mb = "ground-rydberg" ∨ mb = "digital") then .error .valueError
    else
      let N := rs.size
      let probs := finalProbs rs
      if rs.dim = 2 then
        if mb = rs.basis_name then
          .ok (some (if mb = "digital" then probs else probs.reverse))
        else
          .ok none
      else if rs.dim = 3 then
        let one_state : Nat := if mb = "ground-rydberg" then 0 else 2
        let ex_one : List Nat := if mb = "ground-rydberg" then [1, 2] else [0, 1]
        .ok (some ((List.range (2 ^ N)).map (dim3Weight one_state ex_one N probs)))
      else .error .notImplementedError

/-- Characteristic property of a vector `np.random.multinomial(n, w)` can
return: one count per weight, counts summing to `n`, and no mass on
zero-weight categories. -/
def Multinomial (w : List ℚ) (n : Nat) (dist : List Nat) : Prop :=
  dist.length = w.length ∧ dist.sum = n ∧
    ∀ i, i < dist.length → w.getD i 0 = 0 → dist.getD i 0 = 0

instance (w : List ℚ) (n : Nat) (dist : List Nat) :
    Decidable (Multinomial w n dist) := by
  unfold Multinomial; infer_instance

/-- Line 141: the returned dictionary
`{np.binary_repr(i, N): dist[i] for i in np.nonzero(dist)[0]}`,
as an association list in index order. -/
def assemble (N : Nat) (dist : List Nat) : List (String × Nat) :=
  (List.range dist.length).filterMap fun i =>
    if dist.getD i 0 = 0 then none else some (binReprStr i N, dist.getD i 0)

/-- `sample_final_state` (lines 71-141), with the multinomial outcome `dist`
passed in. The mismatch branch ignores `dist` (no draw happens there). -/
def sample_final_state (rs : SimulationResults) (meas_basis : Option String)
    (N_samples : Nat) (dist : List Nat) : Except SimError (List (String × Nat)) :=
  match sampleWeights rs meas_basis with
  | .error e => .error e
  | .ok none => .ok [(zeroString rs.size, N_samples)]
  | .ok (some _) => .ok (assemble rs.size dist)

/-- Whether every count in a returned sample dictionary is strictly positive
(trivially true on the error outcomes). -/
def allCountsPos : Except SimError (List (String × Nat)) → Bool
  | .ok l => l.all fun pr => decide (0 < pr.2)
  | .error _ => true

/-- An observable as `expect` sees it: only its shape takes part in the
validation; the matrix content is consumed by the external `qutip.expect`. -/
structure Observable where
  shape : Nat × Nat
deriving DecidableEq

/-- The dynamic type of the `obs_list` argument of `expect`. Python's
`isinstance(obs_list, (list, np.ndarray))` accepts exactly the first two
constructors; a tuple or any other object is rejected. -/
inductive ObsArg where
  | pyList : List Observable → ObsArg
  | ndarray : List Observable → ObsArg
  | tuple : List Observable → ObsArg
  | other : ObsArg

/-- The check `isinstance(obs_list, (list, np.ndarray))` on line 57. -/
def isListOrNdarray : ObsArg → Bool
  | .pyList _ => true
  | .ndarray _ => true
  | _ => false

/-- Modelled from the spec: an "array-like sequence" in the sense of the
docstring and of §4.1 — any sequence of observables, tuples included. -/
def isArrayLikeSequence : ObsArg → Bool
  | .pyList _ => true
  | .ndarray _ => true
  | .tuple _ => true
  | .other => false

/-- The shape-validation loop of `expect` (lines 61-68) followed by the
expectation comprehension (line 70); `ev` stands for the external
`qutip.expect` applied to one observable and one state. -/
def expectChecked (ev : Observable → List Cplx → Cplx) (rs : SimulationResults)
    (l : List Observable) : Except SimError (List (List Cplx)) :=
  if ∀ obs ∈ l, obs.shape = (rs.dim ^ rs.size, rs.dim ^ rs.size) then
    .ok (l.map fun q => rs.states.map (ev q))
  else .error .valueError

/-- `expect` (lines 48-70): `isinstance` gate, then shape validation, then one
list of expectation values per observable, one entry per time step. -/
def expect (ev : Observable → List Cplx → Cplx) (rs : SimulationResults)
    (obs_list : ObsArg) : Except SimError (List (List Cplx)) :=
  match obs_list with
  | .pyList l => expectChecked ev rs l
  | .ndarray l => expectChecked ev rs l
  | _ => .error .typeError

/-- Whether flat index `j` (read as `sels.length` base-3 digits, big-endian)
lies in the sub-block addressed by the per-axis index selections `sels`. -/
def selMatch : List (List Nat) → Nat → Bool
  | [], _ => true
  | s :: rest, j =>
    decide (j / 3 ^ rest.length ∈ s) && selMatch rest (j % 3 ^ rest.length)

/-- Modelled from the spec (§4.2, dim = 3): tensor entry `j` belongs to
bitstring `k` when, on each axis, it holds the single logical-1 level index
where the width-`N` big-endian binary expansion of `k` has a '1' bit, and one
of the two complementary logical-0 level indices where it has a '0' bit. -/
def specSelects (one_state : Nat) (ex_one : List Nat) (N k j : Nat) : Prop :=
  ∀ a, a < N →
    (if k / 2 ^ (N - 1 - a) % 2 = 1
      then j / 3 ^ (N - 1 - a) % 3 = one_state
      else j / 3 ^ (N - 1 - a) % 3 ∈ ex_one)

instance (one_state : Nat) (ex_one : List Nat) (N k j : Nat) :
    Decidable (specSelects one_state ex_one N k j) := by
  unfold specSelects; infer_instance

/-! ### Arithmetic helpers about big-endian digit expansions -/

theorem pow_mul_add_div_mod (B e c r : Nat) (hB : 0 < B) :
    (B ^ e * (B * c) + r) / B ^ e % B = r / B ^ e % B := by
  rw [Nat.mul_add_div (pow_pos hB e), Nat.mul_add_mod]

/-- Taking a value mod `B ^ m` does not change its digits below position `m`. -/
theorem mod_pow_div_mod (B : Nat) (hB : 0 < B) (k i m : Nat) (h : i < m) :
    k % B ^ m / B ^ (m - 1 - i) % B = k / B ^ (m - 1 - i) % B := by
  have key : ∀ q r : Nat,
      (B ^ m * q + r) / B ^ (m - 1 - i) % B = r / B ^ (m - 1 - i) % B := by
    intro q r
    have hm : B ^ m = B ^ (m - 1 - i) * B ^ (i + 1) := by
      rw [← pow_add]; congr 1; omega
    have hq : B ^ m * q = B ^ (m - 1 - i) * (B * (B ^ i * q)) := by
      rw [hm, pow_succ]; ring
    rw [hq, pow_mul_add_div_mod _ _ _ _ hB]
  conv_rhs => rw [← Nat.div_add_mod k (B ^ m)]
  exact (key _ _).symm

theorem bitsBE_length (m : Nat) : ∀ k, (bitsBE k m).length = m := by
  induction m with
  | zero => intro k; rfl
  | succ m ih => intro k; simp [bitsBE, ih]

theorem bitsBE_lt_two (m : Nat) : ∀ k, ∀ b ∈ bitsBE k m, b < 2 := by
  induction m with
  | zero => intro k b hb; simp [bitsBE] at hb
  | succ m ih =>
    intro k b hb
    simp only [bitsBE, List.mem_cons] at hb
    rcases hb with h | h
    · subst h; exact Nat.mod_lt _ (by norm_num)
    · exact ih _ _ h

theorem bitsBE_getD (m : Nat) : ∀ k a, a < m →
    (bitsBE k m).getD a 0 = k / 2 ^ (m - 1 - a) % 2 := by
  induction m with
  | zero => intro k a ha; omega
  | succ m ih =>
    intro k a ha
    match a with
    | 0 =>
      show k / 2 ^ m % 2 = k / 2 ^ (m + 1 - 1 - 0) % 2
      congr 2
    | a + 1 =>
      have ha' : a < m := by omega
      have hexp : m + 1 - 1 - (a + 1) = m - 1 - a := by omega
      show (bitsBE (k % 2 ^ m) m).getD a 0 = k / 2 ^ (m + 1 - 1 - (a + 1)) % 2
      rw [hexp, ih _ _ ha', mod_pow_div_mod 2 (by norm_num) _ _ _ ha']

theorem bitsBE_mul_add (N d r : Nat) (hd : d < 2) (hr : r < 2 ^ N) :
    bitsBE (d * 2 ^ N + r) (N + 1) = d :: bitsBE r N := by
  have h1 : (d * 2 ^ N + r) / 2 ^ N = d := by
    rw [mul_comm d (2 ^ N), Nat.mul_add_div (pow_pos (by norm_num) N)]
    simp [Nat.div_eq_of_lt hr]
  have h2 : (d * 2 ^ N + r) % 2 ^ N = r := by
    rw [mul_comm d (2 ^ N), Nat.mul_add_mod, Nat.mod_eq_of_lt hr]
  show (d * 2 ^ N + r) / 2 ^ N % 2 :: bitsBE ((d * 2 ^ N + r) % 2 ^ N) N = _
  rw [h1, h2, Nat.mod_eq_of_lt hd]

theorem bitsBE_inj (m : Nat) : ∀ k k', k < 2 ^ m → k' < 2 ^ m →
    bitsBE k m = bitsBE k' m → k = k' := by
  induction m with
  | zero =>
    intro k k' hk hk' _
    norm_num at hk hk'
    omega
  | succ m ih =>
    intro k k' hk hk' he
    simp only [bitsBE, List.cons.injEq] at he
    obtain ⟨h1, h2⟩ := he
    have hpow : 2 ^ (m + 1) = 2 * 2 ^ m := by rw [pow_succ]; ring
    have hdk : k / 2 ^ m < 2 := by
      rw [Nat.div_lt_iff_lt_mul (pow_pos (by norm_num) m)]
      calc k < 2 ^ (m + 1) := hk
        _ = 2 * 2 ^ m := hpow
    have hdk' : k' / 2 ^ m < 2 := by
      rw [Nat.div_lt_iff_lt_mul (pow_pos (by norm_num) m)]
      calc k' < 2 ^ (m + 1) := hk'
        _ = 2 * 2 ^ m := hpow
    have hmod : k % 2 ^ m = k' % 2 ^ m :=
      ih _ _ (Nat.mod_lt _ (pow_pos (by norm_num) m))
        (Nat.mod_lt _ (pow_pos (by norm_num) m)) h2
    have hdiv : k / 2 ^ m = k' / 2 ^ m := by
      rwa [Nat.mod_eq_of_lt hdk, Nat.mod_eq_of_lt hdk'] at h1
    calc k = 2 ^ m * (k / 2 ^ m) + k % 2 ^ m := (Nat.div_add_mod k (2 ^ m)).symm
      _ = 2 ^ m * (k' / 2 ^ m) + k' % 2 ^ m := by rw [hdiv, hmod]
      _ = k' := Nat.div_add_mod k' (2 ^ m)

theorem sizeAux_le : ∀ (fuel n w : Nat), n ≤ fuel → n < 2 ^ w → sizeAux fuel n ≤ w := by
  intro fuel
  induction fuel with
  | zero => intro n w _ _; simp [sizeAux]
  | succ fuel ih =>
    intro n w hn hw
    by_cases h0 : n = 0
    · simp [sizeAux, h0]
    · have hw0 : w ≠ 0 := by
        intro h
        subst h
        norm_num at hw
        omega
      obtain ⟨w', rfl⟩ : ∃ w', w = w' + 1 := ⟨w - 1, by omega⟩
      simp only [sizeAux, h0, if_false]
      have hdiv : n / 2 < 2 ^ w' := by
        rw [Nat.div_lt_iff_lt_mul (by norm_num)]
        calc n < 2 ^ (w' + 1) := hw
          _ = 2 ^ w' * 2 := pow_succ 2 w'
      have hfuel : n / 2 ≤ fuel := by omega
      have := ih (n / 2) w' hfuel hdiv
      omega

/-- Whenever `k` fits in `width` bits, `np.binary_repr` pads to exactly
`width` digits. -/
theorem binRepr_eq_bitsBE {k w : Nat} (h : k < 2 ^ w) : binRepr k w = bitsBE k w := by
  unfold binRepr bitLen
  rw [Nat.max_eq_left (sizeAux_le k k w le_rfl h)]

/-! ### Sum plumbing -/

theorem list_range_map_sum {M : Type _} [AddCommMonoid M] (f : Nat → M) (n : Nat) :
    ((List.range n).map f).sum = ∑ i ∈ Finset.range n, f i := by
  induction n with
  | zero => rfl
  | succ n ih =>
    rw [List.range_succ, List.map_append, List.sum_append, Finset.sum_range_succ, ih]
    simp

theorem sum_range_getD {M : Type _} [AddCommMonoid M] (l : List M) :
    ∑ j ∈ Finset.range l.length, l.getD j 0 = l.sum := by
  induction l with
  | nil => rfl
  | cons a t ih =>
    rw [List.length_cons, Finset.sum_range_succ']
    simp only [List.getD_cons_succ, List.getD_cons_zero]
    rw [ih, List.sum_cons, add_comm]

theorem sum_range_mul {M : Type _} [AddCommMonoid M] (a b : Nat) (f : Nat → M) :
    ∑ j ∈ Finset.range (a * b), f j
      = ∑ d ∈ Finset.range a, ∑ r ∈ Finset.range b, f (d * b + r) := by
  induction a with
  | zero => simp
  | succ a ih =>
    rw [Nat.succ_mul, Finset.sum_range_add, ih, Finset.sum_range_succ]

theorem getD_map_range {M : Type _} (f : Nat → M) (n k : Nat) (hk : k < n) (d : M) :
    ((List.range n).map f).getD k d = f k := by
  rw [List.getD_eq_getElem _ _ (by simpa using hk)]
  simp

/-! ### The dim-3 index-tuple sum -/

theorem flatIdx_cons (acc i : Nat) (t : List Nat) :
    flatIdx acc (i :: t) = flatIdx (3 * acc + i) t := rfl

/-- Summing over the Cartesian product of per-axis selections equals summing
the indicator-filtered flat range. -/
theorem indexTuples_sum (p : Nat → ℚ) :
    ∀ (sels : List (List Nat)),
      (∀ s ∈ sels, s.Nodup ∧ ∀ i ∈ s, i < 3) → ∀ acc : Nat,
      ((indexTuples sels).map fun t => p (flatIdx acc t)).sum
        = ∑ j ∈ Finset.range (3 ^ sels.length),
            if selMatch sels j then p (acc * 3 ^ sels.length + j) else 0 := by
  intro sels
  induction sels with
  | nil =>
    intro _ acc
    simp [indexTuples, flatIdx, selMatch]
  | cons s rest ih =>
    intro hs acc
    obtain ⟨hnd, hlt⟩ := hs s (List.mem_cons_self s rest)
    have hrest : ∀ s' ∈ rest, s'.Nodup ∧ ∀ i ∈ s', i < 3 :=
      fun s' h => hs s' (List.mem_cons_of_mem _ h)
    have hL : ((indexTuples (s :: rest)).map fun t => p (flatIdx acc t)).sum
        = (s.map fun i => ∑ j ∈ Finset.range (3 ^ rest.length),
            if selMatch rest j then p ((3 * acc + i) * 3 ^ rest.length + j) else 0).sum := by
      show ((s.flatMap fun i => (indexTuples rest).map fun t => i :: t).map
          fun t => p (flatIdx acc t)).sum = _
      rw [List.map_flatMap, List.flatMap, List.sum_flatten, List.map_map]
      congr 1
      apply List.map_congr_left
      intro i _
      show (((indexTuples rest).map fun t => i :: t).map fun t => p (flatIdx acc t)).sum = _
      rw [List.map_map]
      exact ih hrest (3 * acc + i)
    have hF : (s.map fun i => ∑ j ∈ Finset.range (3 ^ rest.length),
            if selMatch rest j then p ((3 * acc + i) * 3 ^ rest.length + j) else 0).sum
        = ∑ d ∈ Finset.range 3, if d ∈ s then
            (∑ j ∈ Finset.range (3 ^ rest.length),
              if selMatch rest j then p ((3 * acc + d) * 3 ^ rest.length + j) else 0)
          else 0 := by
      have hset : (Finset.range 3).filter (· ∈ s) = s.toFinset := by
        ext d
        simp only [Finset.mem_filter, Finset.mem_range, List.mem_toFinset]
        exact ⟨fun h => h.2, fun h => ⟨hlt d h, h⟩⟩
      rw [← List.sum_toFinset _ hnd, ← hset, Finset.sum_filter]
    have hR : (∑ j ∈ Finset.range (3 ^ (s :: rest).length),
          if selMatch (s :: rest) j then p (acc * 3 ^ (s :: rest).length + j) else 0)
        = ∑ d ∈ Finset.range 3, if d ∈ s then
            (∑ j ∈ Finset.range (3 ^ rest.length),
              if selMatch rest j then p ((3 * acc + d) * 3 ^ rest.length + j) else 0)
          else 0 := by
      have h31 : (3 : Nat) ^ (s :: rest).length = 3 * 3 ^ rest.length := by
        rw [List.length_cons, pow_succ]; ring
      rw [h31, sum_range_mul]
      apply Finset.sum_congr rfl
      intro d _
      have key : ∀ r, r < 3 ^ rest.length →
          (selMatch (s :: rest) (d * 3 ^ rest.length + r)
            = (decide (d ∈ s) && selMatch rest r)) := by
        intro r hr
        have hq : (d * 3 ^ rest.length + r) / 3 ^ rest.length = d := by
          rw [mul_comm d _, Nat.mul_add_div (pow_pos (by norm_num) _)]
          simp [Nat.div_eq_of_lt hr]
        have hm : (d * 3 ^ rest.length + r) % 3 ^ rest.length = r := by
          rw [mul_comm d _, Nat.mul_add_mod, Nat.mod_eq_of_lt hr]
        show (decide ((d * 3 ^ rest.length + r) / 3 ^ rest.length ∈ s)
            && selMatch rest ((d * 3 ^ rest.length + r) % 3 ^ rest.length)) = _
        rw [hq, hm]
      by_cases hds : d ∈ s
      · rw [if_pos hds]
        apply Finset.sum_congr rfl
        intro r hr
        rw [Finset.mem_range] at hr
        rw [key r hr]
        have harg : acc * (3 * 3 ^ rest.length) + (d * 3 ^ rest.length + r)
            = (3 * acc + d) * 3 ^ rest.length + r := by ring
        rw [decide_eq_true hds, Bool.true_and, harg]
      · rw [if_neg hds]
        apply Finset.sum_eq_zero
        intro r hr
        rw [Finset.mem_range] at hr
        rw [key r hr]
        simp [hds]
    rw [hL, hF, hR]

/-- `selMatch` is the per-axis digit condition of the spec. -/
theorem selMatch_eq_digits :
    ∀ (sels : List (List Nat)) (j : Nat), j < 3 ^ sels.length →
      (selMatch sels j = true ↔
        ∀ a, a < sels.length → j / 3 ^ (sels.length - 1 - a) % 3 ∈ sels.getD a []) := by
  intro sels
  induction sels with
  | nil =>
    intro j hj
    simp [selMatch]
  | cons s rest ih =>
    intro j hj
    have hjd : j / 3 ^ rest.length < 3 := by
      rw [Nat.div_lt_iff_lt_mul (pow_pos (by norm_num) _)]
      calc j < 3 ^ (rest.length + 1) := by simpa using hj
        _ = 3 * 3 ^ rest.length := by rw [pow_succ]; ring
    have hmodlt : j % 3 ^ rest.length < 3 ^ rest.length :=
      Nat.mod_lt _ (pow_pos (by norm_num) _)
    have htail := ih (j % 3 ^ rest.length) hmodlt
    have hexp0 : (s :: rest).length - 1 - 0 = rest.length := by simp
    have hexpS : ∀ a, (s :: rest).length - 1 - (a + 1) = rest.length - 1 - a := by
      intro a
      simp only [List.length_cons]
      omega
    constructor
    · intro h a ha
      have hparts : (j / 3 ^ rest.length ∈ s)
          ∧ selMatch rest (j % 3 ^ rest.length) = true := by
        simpa [selMatch, Bool.and_eq_true, decide_eq_true_eq] using h
      match a with
      | 0 =>
        rw [hexp0]
        show j / 3 ^ rest.length % 3 ∈ s
        rw [Nat.mod_eq_of_lt hjd]
        exact hparts.1
      | a + 1 =>
        have ha' : a < rest.length := by simpa using ha
        have hdig := (htail.mp hparts.2) a ha'
        rw [mod_pow_div_mod 3 (by norm_num) _ _ _ ha'] at hdig
        rw [hexpS a]
        exact hdig
    · intro h
      have h0 := h 0 (by simp)
      rw [hexp0] at h0
      have hd0 : j / 3 ^ rest.length ∈ s := by
        have : j / 3 ^ rest.length % 3 ∈ s := h0
        rwa [Nat.mod_eq_of_lt hjd] at this
      have htl : selMatch rest (j % 3 ^ rest.length) = true := by
        rw [htail]
        intro a ha
        have hS := h (a + 1) (by simpa using Nat.succ_lt_succ ha)
        rw [hexpS a] at hS
        rw [mod_pow_div_mod 3 (by norm_num) _ _ _ ha]
        exact hS
      show (decide (j / 3 ^ rest.length ∈ s)
          && selMatch rest (j % 3 ^ rest.length)) = true
      rw [decide_eq_true hd0, Bool.true_and, htl]

theorem tupleSum_cons (p : Nat → ℚ) (s : List Nat) (sels : List (List Nat)) (acc : Nat) :
    tupleSum p (s :: sels) acc = (s.map fun i => tupleSum p sels (3 * acc + i)).sum := by
  show ((s.flatMap fun i => (indexTuples sels).map fun t => i :: t).map
      fun t => p (flatIdx acc t)).sum = _
  rw [List.map_flatMap, List.flatMap, List.sum_flatten, List.map_map]
  congr 1
  apply List.map_congr_left
  intro i _
  show (((indexTuples sels).map fun t => i :: t).map fun t => p (flatIdx acc t)).sum = _
  rw [List.map_map]
  rfl

/-- The `2 ^ N` per-bitstring tensor sums of the dim-3 path add up to the sum
of `p` over the whole `3 ^ N` range: the selectors partition the tensor. -/
theorem sum_tupleSum_bits (p : Nat → ℚ) (one_state : Nat) (ex_one : List Nat)
    (hbasis : (one_state = 0 ∧ ex_one = [1, 2]) ∨ (one_state = 2 ∧ ex_one = [0, 1])) :
    ∀ N acc,
      (∑ k ∈ Finset.range (2 ^ N),
          tupleSum p ((bitsBE k N).map (axisSel one_state ex_one)) acc)
        = ∑ j ∈ Finset.range (3 ^ N), p (acc * 3 ^ N + j) := by
  intro N
  induction N with
  | zero => intro acc; simp [bitsBE, tupleSum, indexTuples, flatIdx]
  | succ N ih =>
    intro acc
    have hsel : ∀ g : Nat → ℚ,
        ((axisSel one_state ex_one 0).map g).sum
          + ((axisSel one_state ex_one 1).map g).sum = g 0 + g 1 + g 2 := by
      rcases hbasis with ⟨rfl, rfl⟩ | ⟨rfl, rfl⟩ <;>
        (intro g; simp [axisSel]; try ring)
    have h2 : (2 : Nat) ^ (N + 1) = 2 * 2 ^ N := by rw [pow_succ]; ring
    have h3 : (3 : Nat) ^ (N + 1) = 3 * 3 ^ N := by rw [pow_succ]; ring
    rw [h2, sum_range_mul, Finset.sum_range_succ, Finset.sum_range_one]
    have hbit : ∀ d, d < 2 →
        (∑ r ∈ Finset.range (2 ^ N),
          tupleSum p ((bitsBE (d * 2 ^ N + r) (N + 1)).map (axisSel one_state ex_one)) acc)
        = ∑ r ∈ Finset.range (2 ^ N),
            ((axisSel one_state ex_one d).map fun i =>
              tupleSum p ((bitsBE r N).map (axisSel one_state ex_one)) (3 * acc + i)).sum := by
      intro d hd
      apply Finset.sum_congr rfl
      intro r hr
      rw [Finset.mem_range] at hr
      rw [bitsBE_mul_add N d r hd hr, List.map_cons, tupleSum_cons]
    rw [hbit 0 (by norm_num), hbit 1 (by norm_num), ← Finset.sum_add_distrib]
    have hpt : ∀ r ∈ Finset.range (2 ^ N),
        ((axisSel one_state ex_one 0).map fun i =>
            tupleSum p ((bitsBE r N).map (axisSel one_state ex_one)) (3 * acc + i)).sum
          + ((axisSel one_state ex_one 1).map fun i =>
            tupleSum p ((bitsBE r N).map (axisSel one_state ex_one)) (3 * acc + i)).sum
        = tupleSum p ((bitsBE r N).map (axisSel one_state ex_one)) (3 * acc + 0)
          + tupleSum p ((bitsBE r N).map (axisSel one_state ex_one)) (3 * acc + 1)
          + tupleSum p ((bitsBE r N).map (axisSel one_state ex_one)) (3 * acc + 2) := by
      intro r _
      exact hsel _
    rw [Finset.sum_congr rfl hpt, Finset.sum_add_distrib, Finset.sum_add_distrib,
      ih (3 * acc + 0), ih (3 * acc + 1), ih (3 * acc + 2),
      h3, sum_range_mul, Finset.sum_range_succ, Finset.sum_range_succ, Finset.sum_range_one]
    have hW : ∀ d : Nat,
        (∑ r ∈ Finset.range (3 ^ N), p (acc * (3 * 3 ^ N) + (d * 3 ^ N + r)))
          = ∑ r ∈ Finset.range (3 ^ N), p ((3 * acc + d) * 3 ^ N + r) := by
      intro d
      apply Finset.sum_congr rfl
      intro r _
      congr 1
      ring
    rw [hW 0, hW 1, hW 2]

/-! ### Branch evaluations of sampleWeights -/

theorem sampleWeights_valid (rs : SimulationResults) (mb : Option String) (b : String)
    (hres : resolveBasis rs mb = some b)
    (hb : b = "ground-rydberg" ∨ b = "digital") :
    sampleWeights rs mb =
      (if rs.dim = 2 then
        if b = rs.basis_name then
          .ok (some (if b = "digital" then finalProbs rs else (finalProbs rs).reverse))
        else .ok none
      else if rs.dim = 3 then
        .ok (some ((List.range (2 ^ rs.size)).map
          (dim3Weight (if b = "ground-rydberg" then 0 else 2)
            (if b = "ground-rydberg" then [1, 2] else [0, 1]) rs.size (finalProbs rs))))
      else .error .notImplementedError) := by
  simp only [sampleWeights, hres]
  rw [if_neg (not_not_intro hb)]

theorem sampleWeights_noBasis (rs : SimulationResults) (mb : Option String)
    (h : resolveBasis rs mb = none) :
    sampleWeights rs mb = .error .valueError := by
  simp only [sampleWeights, h]

theorem sampleWeights_invalidBasis (rs : SimulationResults) (mb : Option String)
    (b : String) (hres : resolveBasis rs mb = some b)
    (hb : ¬ (b = "ground-rydberg" ∨ b = "digital")) :
    sampleWeights rs mb = .error .valueError := by
  simp only [sampleWeights, hres]
  rw [if_pos hb]

/-- Under the stored-length invariant, every drawn-from weight vector has one
entry per bitstring. -/
theorem sampleWeights_some_length (rs : SimulationResults) (mb : Option String)
    (v : List ℚ) (hw : sampleWeights rs mb = .ok (some v))
    (hlen : (finalProbs rs).length = rs.dim ^ rs.size) :
    v.length = 2 ^ rs.size := by
  cases hres : resolveBasis rs mb with
  | none =>
    rw [sampleWeights_noBasis rs mb hres] at hw
    simp at hw
  | some b =>
    by_cases hb : b = "ground-rydberg" ∨ b = "digital"
    · rw [sampleWeights_valid rs mb b hres hb] at hw
      by_cases h2 : rs.dim = 2
      · rw [if_pos h2] at hw
        by_cases hmatch : b = rs.basis_name
        · rw [if_pos hmatch] at hw
          simp only [Except.ok.injEq, Option.some.injEq] at hw
          rw [← hw]
          rw [h2] at hlen
          by_cases hd : b = "digital"
          · rw [if_pos hd]; exact hlen
          · rw [if_neg hd, List.length_reverse]; exact hlen
        · rw [if_neg hmatch] at hw
          simp at hw
      · by_cases h3 : rs.dim = 3
        · rw [if_neg h2, if_pos h3] at hw
          simp only [Except.ok.injEq, Option.some.injEq] at hw
          rw [← hw, List.length_map, List.length_range]
        · rw [if_neg h2, if_neg h3] at hw
          simp at hw
    · rw [sampleWeights_invalidBasis rs mb b hres hb] at hw
      simp at hw

/-! ### Well-formedness of the returned dictionary -/

theorem assemble_sum (N : Nat) (dist : List Nat) :
    ((assemble N dist).map Prod.snd).sum = dist.sum := by
  have key : ∀ n : Nat,
      ((((List.range n).filterMap fun i =>
          if dist.getD i 0 = 0 then none
          else some (binReprStr i N, dist.getD i 0)).map Prod.snd).sum)
        = ∑ i ∈ Finset.range n, dist.getD i 0 := by
    intro n
    induction n with
    | zero => rfl
    | succ n ih =>
      rw [List.range_succ, List.filterMap_append, List.map_append, List.sum_append,
        ih, Finset.sum_range_succ]
      congr 1
      by_cases h : dist.getD n 0 = 0
      · rw [List.filterMap_cons, if_pos h]
        simp only [List.filterMap_nil, List.map_nil, List.sum_nil, h]
      · rw [List.filterMap_cons, if_neg h]
        simp only [List.filterMap_nil, List.map_cons, List.map_nil, List.sum_cons,
          List.sum_nil, add_zero]
  show ((((List.range dist.length).filterMap fun i =>
      if dist.getD i 0 = 0 then none
      else some (binReprStr i N, dist.getD i 0)).map Prod.snd).sum) = dist.sum
  rw [key dist.length]
  exact sum_range_getD dist

theorem assemble_keys (N : Nat) (dist : List Nat) :
    (assemble N dist).map Prod.fst
      = ((List.range dist.length).filter fun i => decide (dist.getD i 0 ≠ 0)).map
          fun i => binReprStr i N := by
  have key : ∀ l : List Nat,
      ((l.filterMap fun i => if dist.getD i 0 = 0 then none
          else some (binReprStr i N, dist.getD i 0)).map Prod.fst)
        = (l.filter fun i => decide (dist.getD i 0 ≠ 0)).map fun i => binReprStr i N := by
    intro l
    induction l with
    | nil => rfl
    | cons a t ih =>
      by_cases h : dist.getD a 0 = 0
      · have hc : decide (dist.getD a 0 ≠ 0) = false := decide_eq_false (fun hn => hn h)
        rw [List.filterMap_cons, if_pos h, List.filter_cons, hc]
        simp only [Bool.false_eq_true, if_false]
        exact ih
      · have hc : decide (dist.getD a 0 ≠ 0) = true := decide_eq_true h
        rw [List.filterMap_cons, if_neg h, List.filter_cons, hc]
        simp only [if_true, List.map_cons]
        rw [ih]
  exact key _

theorem assemble_mem (N : Nat) (dist : List Nat) (pr : String × Nat)
    (h : pr ∈ assemble N dist) :
    ∃ i, i < dist.length ∧ dist.getD i 0 ≠ 0 ∧ pr = (binReprStr i N, dist.getD i 0) := by
  unfold assemble at h
  rw [List.mem_filterMap] at h
  obtain ⟨i, hi, hf⟩ := h
  rw [List.mem_range] at hi
  by_cases h0 : dist.getD i 0 = 0
  · rw [if_pos h0] at hf
    cases hf
  · rw [if_neg h0] at hf
    exact ⟨i, hi, h0, (Option.some_inj.mp hf).symm⟩

theorem bitChar_inj : ∀ bs bs' : List Nat, (∀ b ∈ bs, b < 2) → (∀ b ∈ bs', b < 2) →
    bs.map bitChar = bs'.map bitChar → bs = bs' := by
  intro bs
  induction bs with
  | nil =>
    intro bs' _ _ h
    cases bs' with
    | nil => rfl
    | cons b' t' => simp at h
  | cons b t ih =>
    intro bs' hb hb' h
    cases bs' with
    | nil => simp at h
    | cons b' t' =>
      simp only [List.map_cons, List.cons.injEq] at h
      obtain ⟨h1, h2⟩ := h
      have hbl : b < 2 := hb b (by simp)
      have hbl' : b' < 2 := hb' b' (by simp)
      have hbb : b = b' := by
        interval_cases b <;> interval_cases b' <;>
          first
          | rfl
          | (exfalso; revert h1; decide)
      rw [hbb, ih t' (fun x hx => hb x (by simp [hx]))
        (fun x hx => hb' x (by simp [hx])) h2]

theorem binReprStr_length {i N : Nat} (h : i < 2 ^ N) : (binReprStr i N).length = N := by
  show ((binRepr i N).map bitChar).length = N
  rw [binRepr_eq_bitsBE h, List.length_map, bitsBE_length]

theorem binReprStr_inj {x y N : Nat} (hx : x < 2 ^ N) (hy : y < 2 ^ N)
    (h : binReprStr x N = binReprStr y N) : x = y := by
  unfold binReprStr at h
  rw [binRepr_eq_bitsBE hx, binRepr_eq_bitsBE hy] at h
  have hdata : (bitsBE x N).map bitChar = (bitsBE y N).map bitChar :=
    congrArg String.data h
  exact bitsBE_inj N x y hx hy
    (bitChar_inj _ _ (bitsBE_lt_two N x) (bitsBE_lt_two N y) hdata)

theorem binReprStr_chars (i N : Nat) :
    ∀ c ∈ (binReprStr i N).data, c = '0' ∨ c = '1' := by
  intro c hc
  have hc' : c ∈ (binRepr i N).map bitChar := hc
  rw [List.mem_map] at hc'
  obtain ⟨b, _, rfl⟩ := hc'
  unfold bitChar
  by_cases h : b = 1
  · rw [if_pos h]; right; rfl
  · rw [if_neg h]; left; rfl

theorem zeroString_length (n : Nat) : (zeroString n).length = n := by
  show (List.replicate n '0').length = n
  rw [List.length_replicate]

theorem zeroString_chars (n : Nat) : ∀ c ∈ (zeroString n).data, c = '0' ∨ c = '1' := by
  intro c hc
  left
  exact List.eq_of_mem_replicate hc

theorem assemble_keys_nodup (N : Nat) (dist : List Nat) (hlen : dist.length ≤ 2 ^ N) :
    ((assemble N dist).map Prod.fst).Nodup := by
  rw [assemble_keys]
  apply List.Nodup.map_on
  · intro x hx y hy hxy
    rw [List.mem_filter] at hx hy
    have hxr : x < dist.length := List.mem_range.mp hx.1
    have hyr : y < dist.length := List.mem_range.mp hy.1
    exact binReprStr_inj (lt_of_lt_of_le hxr hlen) (lt_of_lt_of_le hyr hlen) hxy
  · exact (List.nodup_range _).filter _

theorem getD_reverse (l : List ℚ) (k : Nat) (hk : k < l.length) :
    l.reverse.getD k 0 = l.getD (l.length - 1 - k) 0 := by
  rw [List.getD_eq_getElem _ _ (by simpa using hk),
    List.getD_eq_getElem _ _ (by omega)]
  rw [List.getElem_reverse]

/-! ### Dispatch of sample_final_state on the weight computation -/

theorem sample_eq_of_weights_error (rs : SimulationResults) (mb : Option String)
    (N_samples : Nat) (dist : List Nat) (e : SimError)
    (h : sampleWeights rs mb = .error e) :
    sample_final_state rs mb N_samples dist = .error e := by
  unfold sample_final_state
  rw [h]

theorem sample_eq_of_weights_none (rs : SimulationResults) (mb : Option String)
    (N_samples : Nat) (dist : List Nat)
    (h : sampleWeights rs mb = .ok none) :
    sample_final_state rs mb N_samples dist = .ok [(zeroString rs.size, N_samples)] := by
  unfold sample_final_state
  rw [h]

theorem sample_eq_of_weights_some (rs : SimulationResults) (mb : Option String)
    (N_samples : Nat) (dist : List Nat) (w : List ℚ)
    (h : sampleWeights rs mb = .ok (some w)) :
    sample_final_state rs mb N_samples dist = .ok (assemble rs.size dist) := by
  unfold sample_final_state
  rw [h]

/-- With a valid resolved basis, no branch of the sampler raises ValueError. -/
theorem sample_valid_not_valueError (rs : SimulationResults) (mb : Option String)
    (b : String) (N_samples : Nat) (dist : List Nat)
    (hres : resolveBasis rs mb = some b)
    (hb : b = "ground-rydberg" ∨ b = "digital") :
    sample_final_state rs mb N_samples dist ≠ .error .valueError := by
  intro h
  by_cases h2 : rs.dim = 2
  · by_cases hmatch : b = rs.basis_name
    · have hw : sampleWeights rs mb = .ok (some (if b = "digital" then finalProbs rs
          else (finalProbs rs).reverse)) := by
        rw [sampleWeights_valid rs mb b hres hb, if_pos h2, if_pos hmatch]
      rw [sample_eq_of_weights_some rs mb N_samples dist _ hw] at h
      exact absurd h (by simp)
    · have hw : sampleWeights rs mb = .ok none := by
        rw [sampleWeights_valid rs mb b hres hb, if_pos h2, if_neg hmatch]
      rw [sample_eq_of_weights_none rs mb N_samples dist hw] at h
      exact absurd h (by simp)
  · by_cases h3 : rs.dim = 3
    · have hw : sampleWeights rs mb = .ok (some ((List.range (2 ^ rs.size)).map
          (dim3Weight (if b = "ground-rydberg" then 0 else 2)
            (if b = "ground-rydberg" then [1, 2] else [0, 1]) rs.size
            (finalProbs rs)))) := by
        rw [sampleWeights_valid rs mb b hres hb, if_neg h2, if_pos h3]
      rw [sample_eq_of_weights_some rs mb N_samples dist _ hw] at h
      exact absurd h (by simp)
    · have hw : sampleWeights rs mb = .error .notImplementedError := by
        rw [sampleWeights_valid rs mb b hres hb, if_neg h2, if_neg h3]
      rw [sample_eq_of_weights_error rs mb N_samples dist _ hw] at h
      simp at h

/-! ### Axis selections versus spec bits -/

theorem getD_map_bits (f : Nat → List Nat) (k N a : Nat) (ha : a < N) :
    ((bitsBE k N).map f).getD a [] = f ((bitsBE k N).getD a 0) := by
  rw [List.getD_eq_getElem _ _ (by rw [List.length_map, bitsBE_length]; exact ha),
    List.getD_eq_getElem _ _ (by rw [bitsBE_length]; exact ha),
    List.getElem_map]

theorem mem_axisSel_iff (one_state : Nat) (ex_one : List Nat) (bit d : Nat)
    (hbit : bit < 2) :
    (d ∈ axisSel one_state ex_one bit) ↔
      (if bit = 1 then d = one_state else d ∈ ex_one) := by
  unfold axisSel
  by_cases h : bit = 0
  · rw [if_pos h, if_neg (by omega)]
  · have h1 : bit = 1 := by omega
    rw [if_neg h, if_pos h1, List.mem_singleton]

/-! ### Claim theorems -/

/-- C3: for dim = 2 whenever the resolved measurement basis is valid but
differs from the stored addressing basis, `sample_final_state` returns all
`N_samples` weight on the all-zero bitstring, for every final state vector and
every draw vector — the probability computation and the draw are bypassed. -/
theorem dim2_mismatch_all_zero (rs : SimulationResults) (mb : Option String)
    (b : String) (N_samples : Nat) (dist : List Nat)
    (hres : resolveBasis rs mb = some b)
    (hb : b = "ground-rydberg" ∨ b = "digital")
    (h2 : rs.dim = 2) (hne : b ≠ rs.basis_name) :
    sample_final_state rs mb N_samples dist
      = .ok [(zeroString rs.size, N_samples)] := by
  have hw : sampleWeights rs mb = .ok none := by
    rw [sampleWeights_valid rs mb b hres hb, if_pos h2, if_neg hne]
  exact sample_eq_of_weights_none rs mb N_samples dist hw

/-- Witness for C3: dim 2, size 1, addressing basis 'digital', measuring
'ground-rydberg'. -/
theorem dim2_mismatch_all_zero_witness :
    sample_final_state ⟨[[⟨1, 0⟩, ⟨0, 0⟩]], 2, 1, "digital", none⟩
      (some "ground-rydberg") 7 [] = .ok [(zeroString 1, 7)] :=
  dim2_mismatch_all_zero _ (some "ground-rydberg") "ground-rydberg" 7 [] rfl
    (Or.inl rfl) rfl (by decide)

/-- C9: a ResultSet whose dim is neither 2 nor 3, sampled with a valid
resolvable basis, raises NotImplementedError and never returns a mapping. -/
theorem unsupported_dim_error (rs : SimulationResults) (mb : Option String)
    (b : String) (N_samples : Nat) (dist : List Nat)
    (hres : resolveBasis rs mb = some b)
    (hb : b = "ground-rydberg" ∨ b = "digital")
    (h2 : rs.dim ≠ 2) (h3 : rs.dim ≠ 3) :
    sample_final_state rs mb N_samples dist = .error .notImplementedError := by
  have hw : sampleWeights rs mb = .error .notImplementedError := by
    rw [sampleWeights_valid rs mb b hres hb, if_neg h2, if_neg h3]
  exact sample_eq_of_weights_error rs mb N_samples dist _ hw

/-- Witness for C9 at dim 4, basis resolved from the stored default. -/
theorem unsupported_dim_error_witness :
    sample_final_state ⟨[[⟨1, 0⟩]], 4, 1, "digital", some "digital"⟩ none 1000 []
      = .error .notImplementedError :=
  unsupported_dim_error _ none "digital" 1000 [] rfl (Or.inr rfl)
    (by decide) (by decide)

/-- C10: the dim-3 weight computation never consults the stored addressing
basis: two ResultSets identical except for `basis_name` produce identical
weight vectors for every measurement-basis argument. -/
theorem dim3_ignores_basis_name (rs : SimulationResults) (bn : String)
    (mb : Option String) (h3 : rs.dim = 3) :
    sampleWeights { rs with basis_name := bn } mb = sampleWeights rs mb := by
  cases hres : resolveBasis rs mb with
  | none =>
    have hres' : resolveBasis { rs with basis_name := bn } mb = none := hres
    rw [sampleWeights_noBasis _ _ hres', sampleWeights_noBasis _ _ hres]
  | some b =>
    have hres' : resolveBasis { rs with basis_name := bn } mb = some b := hres
    by_cases hb : b = "ground-rydberg" ∨ b = "digital"
    · rw [sampleWeights_valid _ mb b hres' hb, sampleWeights_valid rs mb b hres hb]
      have h3' : ({ rs with basis_name := bn } : SimulationResults).dim = 3 := h3
      have hne2' : ¬ (({ rs with basis_name := bn } : SimulationResults).dim = 2) := by
        rw [h3']
        norm_num
      have hne2 : ¬ (rs.dim = 2) := by
        rw [h3]
        norm_num
      rw [if_neg hne2', if_pos h3', if_neg hne2, if_pos h3]
      rfl
    · rw [sampleWeights_invalidBasis _ mb b hres' hb,
        sampleWeights_invalidBasis rs mb b hres hb]

/-- Witness for C10 at a concrete dim-3 ResultSet. -/
theorem dim3_ignores_basis_name_witness :
    sampleWeights { (⟨[[⟨1, 0⟩, ⟨0, 0⟩, ⟨0, 0⟩]], 3, 1, "ground-rydberg", none⟩ :
        SimulationResults) with basis_name := "digital" } (some "digital")
      = sampleWeights
          (⟨[[⟨1, 0⟩, ⟨0, 0⟩, ⟨0, 0⟩]], 3, 1, "ground-rydberg", none⟩ :
            SimulationResults) (some "digital") :=
  dim3_ignores_basis_name _ "digital" (some "digital") rfl

/-- C6: `sample_final_state` raises ValueError exactly when either no basis is
resolvable (no argument and no stored default) or the resolved basis lies
outside the two recognized measurement bases. -/
theorem valueError_iff_bad_basis (rs : SimulationResults) (mb : Option String)
    (N_samples : Nat) (dist : List Nat) :
    sample_final_state rs mb N_samples dist = .error .valueError ↔
      (mb = none ∧ rs.meas_basis = none) ∨
      (∃ b, resolveBasis rs mb = some b ∧ b ≠ "ground-rydberg" ∧ b ≠ "digital") := by
  cases hres : resolveBasis rs mb with
  | none =>
    have hw := sampleWeights_noBasis rs mb hres
    rw [sample_eq_of_weights_error rs mb N_samples dist _ hw]
    constructor
    · intro _
      left
      cases mb with
      | none => exact ⟨rfl, hres⟩
      | some b => exact absurd hres (by simp [resolveBasis])
    · intro _
      rfl
  | some b =>
    by_cases hb : b = "ground-rydberg" ∨ b = "digital"
    · constructor
      · intro h
        exact absurd h (sample_valid_not_valueError rs mb b N_samples dist hres hb)
      · rintro (⟨hm, hs⟩ | ⟨b', hres', hb1, hb2⟩)
        · subst hm
          have hx : rs.meas_basis = some b := hres
          rw [hs] at hx
          cases hx
        · obtain rfl : b = b' := Option.some_inj.mp hres'
          rcases hb with rfl | rfl
          · exact absurd rfl hb1
          · exact absurd rfl hb2
    · have hw := sampleWeights_invalidBasis rs mb b hres hb
      rw [sample_eq_of_weights_error rs mb N_samples dist _ hw]
      constructor
      · intro _
        right
        refine ⟨b, rfl, ?_, ?_⟩
        · intro hbad
          exact hb (Or.inl hbad)
        · intro hbad
          exact hb (Or.inr hbad)
      · intro _
        rfl

/-- C1: for dim = 3 and a valid resolved measurement basis, the weight of
bitstring `k` is the sum of squared magnitudes of exactly those entries of the
final state (reshaped as an N-axis tensor of extent 3) whose index tuple holds
the single logical-1 level on the '1' bits of `k` and one of the two
complementary logical-0 levels on its '0' bits. -/
theorem dim3_weight_is_selected_mass (rs : SimulationResults) (mb : Option String)
    (b : String) (one_state : Nat) (ex_one : List Nat) (k : Nat)
    (hres : resolveBasis rs mb = some b)
    (hbasis : (b = "ground-rydberg" ∧ one_state = 0 ∧ ex_one = [1, 2]) ∨
      (b = "digital" ∧ one_state = 2 ∧ ex_one = [0, 1]))
    (h3 : rs.dim = 3) (hk : k < 2 ^ rs.size) :
    ∃ w, sampleWeights rs mb = .ok (some w) ∧
      w.getD k 0 = ∑ j ∈ Finset.range (3 ^ rs.size),
        if specSelects one_state ex_one rs.size k j
        then (finalProbs rs).getD j 0 else 0 := by
  have hb : b = "ground-rydberg" ∨ b = "digital" := by
    rcases hbasis with ⟨rfl, _, _⟩ | ⟨rfl, _, _⟩
    · exact Or.inl rfl
    · exact Or.inr rfl
  have hos : (if b = "ground-rydberg" then 0 else 2) = one_state := by
    rcases hbasis with ⟨rfl, rfl, _⟩ | ⟨rfl, rfl, _⟩
    · exact if_pos rfl
    · exact if_neg (by decide)
  have hex : (if b = "ground-rydberg" then [1, 2] else [0, 1]) = ex_one := by
    rcases hbasis with ⟨rfl, _, rfl⟩ | ⟨rfl, _, rfl⟩
    · exact if_pos rfl
    · exact if_neg (by decide)
  have hne2 : ¬ (rs.dim = 2) := by
    rw [h3]
    norm_num
  have hw : sampleWeights rs mb = .ok (some ((List.range (2 ^ rs.size)).map
      (dim3Weight one_state ex_one rs.size (finalProbs rs)))) := by
    rw [sampleWeights_valid rs mb b hres hb, if_neg hne2, if_pos h3, hos, hex]
  refine ⟨_, hw, ?_⟩
  rw [getD_map_range _ _ _ hk]
  show ((indexTuples ((binRepr k rs.size).map (axisSel one_state ex_one))).map
    (fun t => (finalProbs rs).getD (flatIdx 0 t) 0)).sum = _
  rw [binRepr_eq_bitsBE hk]
  have hsels : ∀ s ∈ (bitsBE k rs.size).map (axisSel one_state ex_one),
      s.Nodup ∧ ∀ i ∈ s, i < 3 := by
    intro s hsm
    rw [List.mem_map] at hsm
    obtain ⟨bbit, _, rfl⟩ := hsm
    unfold axisSel
    rcases hbasis with ⟨_, rfl, rfl⟩ | ⟨_, rfl, rfl⟩ <;> by_cases hb0 : bbit = 0 <;>
      simp [hb0]
  have hlensels : ((bitsBE k rs.size).map (axisSel one_state ex_one)).length
      = rs.size := by
    rw [List.length_map, bitsBE_length]
  have hbridge : ∀ j,
      ((∀ a, a < rs.size → j / 3 ^ (rs.size - 1 - a) % 3
          ∈ ((bitsBE k rs.size).map (axisSel one_state ex_one)).getD a []) ↔
        specSelects one_state ex_one rs.size k j) := by
    intro j
    unfold specSelects
    refine forall_congr' fun a => ?_
    constructor
    · intro hmem ha
      have hd := hmem ha
      rwa [getD_map_bits _ _ _ _ ha, bitsBE_getD _ _ _ ha,
        mem_axisSel_iff _ _ _ _ (Nat.mod_lt _ (by norm_num))] at hd
    · intro hmem ha
      have hd := hmem ha
      rwa [getD_map_bits _ _ _ _ ha, bitsBE_getD _ _ _ ha,
        mem_axisSel_iff _ _ _ _ (Nat.mod_lt _ (by norm_num))]
  refine (indexTuples_sum (fun j => (finalProbs rs).getD j 0) _ hsels 0).trans ?_
  rw [hlensels]
  apply Finset.sum_congr rfl
  intro j hj
  rw [Finset.mem_range] at hj
  have hsm := selMatch_eq_digits ((bitsBE k rs.size).map (axisSel one_state ex_one))
    j (by rw [hlensels]; exact hj)
  rw [hlensels] at hsm
  refine if_congr ?_ (by rw [zero_mul, zero_add]) rfl
  rw [hsm]
  exact hbridge j

/-- Witness for C1: one atom, dim 3, state concentrated on the rydberg level,
bitstring k = 1 under 'ground-rydberg'. -/
theorem dim3_weight_is_selected_mass_witness :
    ∃ w, sampleWeights ⟨[[⟨1, 0⟩, ⟨0, 0⟩, ⟨0, 0⟩]], 3, 1, "ground-rydberg", none⟩
        (some "ground-rydberg") = .ok (some w) ∧
      w.getD 1 0 = ∑ j ∈ Finset.range (3 ^ 1),
        if specSelects 0 [1, 2] 1 1 j
        then (finalProbs ⟨[[⟨1, 0⟩, ⟨0, 0⟩, ⟨0, 0⟩]], 3, 1,
          "ground-rydberg", none⟩).getD j 0 else 0 :=
  dim3_weight_is_selected_mass _ (some "ground-rydberg") "ground-rydberg" 0 [1, 2] 1
    rfl (Or.inl ⟨rfl, rfl, rfl⟩) rfl (by decide)

/-- C5: for dim = 3 and a valid resolved basis, the 2^N weights sum to the sum
of the squared magnitudes of all 3^N entries of the final state — in
particular to 1 when the state is normalized — because the selectors
partition the probability tensor. -/
theorem dim3_weights_total_mass (rs : SimulationResults) (mb : Option String)
    (b : String)
    (hres : resolveBasis rs mb = some b)
    (hb : b = "ground-rydberg" ∨ b = "digital")
    (h3 : rs.dim = 3)
    (hlen : (finalProbs rs).length = 3 ^ rs.size) :
    ∃ w, sampleWeights rs mb = .ok (some w) ∧ w.sum = (finalProbs rs).sum ∧
      ((finalProbs rs).sum = 1 → w.sum = 1) := by
  have hne2 : ¬ (rs.dim = 2) := by
    rw [h3]
    norm_num
  have hw : sampleWeights rs mb = .ok (some ((List.range (2 ^ rs.size)).map
      (dim3Weight (if b = "ground-rydberg" then 0 else 2)
        (if b = "ground-rydberg" then [1, 2] else [0, 1]) rs.size
        (finalProbs rs)))) := by
    rw [sampleWeights_valid rs mb b hres hb, if_neg hne2, if_pos h3]
  have hbasis' : ((if b = "ground-rydberg" then (0 : Nat) else 2) = 0 ∧
        (if b = "ground-rydberg" then [1, 2] else [0, 1]) = [1, 2]) ∨
      ((if b = "ground-rydberg" then (0 : Nat) else 2) = 2 ∧
        (if b = "ground-rydberg" then [1, 2] else [0, 1]) = [0, 1]) := by
    rcases hb with rfl | rfl
    · left
      exact ⟨if_pos rfl, if_pos rfl⟩
    · right
      exact ⟨if_neg (by decide), if_neg (by decide)⟩
  have hsum : ((List.range (2 ^ rs.size)).map
      (dim3Weight (if b = "ground-rydberg" then 0 else 2)
        (if b = "ground-rydberg" then [1, 2] else [0, 1]) rs.size
        (finalProbs rs))).sum = (finalProbs rs).sum := by
    rw [list_range_map_sum]
    have hcong : ∀ k ∈ Finset.range (2 ^ rs.size),
        dim3Weight (if b = "ground-rydberg" then 0 else 2)
            (if b = "ground-rydberg" then [1, 2] else [0, 1]) rs.size
            (finalProbs rs) k
          = tupleSum (fun j => (finalProbs rs).getD j 0)
              ((bitsBE k rs.size).map
                (axisSel (if b = "ground-rydberg" then 0 else 2)
                  (if b = "ground-rydberg" then [1, 2] else [0, 1]))) 0 := by
      intro k hk
      rw [Finset.mem_range] at hk
      show ((indexTuples ((binRepr k rs.size).map _)).map _).sum = _
      rw [binRepr_eq_bitsBE hk]
      rfl
    rw [Finset.sum_congr rfl hcong,
      sum_tupleSum_bits (fun j => (finalProbs rs).getD j 0) _ _ hbasis' rs.size 0]
    have hz : ∀ j ∈ Finset.range (3 ^ rs.size),
        (finalProbs rs).getD (0 * 3 ^ rs.size + j) 0 = (finalProbs rs).getD j 0 := by
      intro j _
      rw [zero_mul, zero_add]
    rw [Finset.sum_congr rfl hz, ← hlen, sum_range_getD]
  exact ⟨_, hw, hsum, fun h1 => hsum.trans h1⟩

/-- Witness for C5: one atom, dim 3, normalized state, basis 'digital'. -/
theorem dim3_weights_total_mass_witness :
    ∃ w, sampleWeights ⟨[[⟨0, 0⟩, ⟨1, 0⟩, ⟨0, 0⟩]], 3, 1, "all", none⟩
        (some "digital") = .ok (some w) ∧
      w.sum = (finalProbs ⟨[[⟨0, 0⟩, ⟨1, 0⟩, ⟨0, 0⟩]], 3, 1, "all", none⟩).sum ∧
      ((finalProbs ⟨[[⟨0, 0⟩, ⟨1, 0⟩, ⟨0, 0⟩]], 3, 1, "all", none⟩).sum = 1 →
        w.sum = 1) :=
  dim3_weights_total_mass _ (some "digital") "digital" rfl (Or.inr rfl) rfl
    (by decide)

/-- C2: for dim = 2 with the resolved measurement basis equal to the stored
addressing basis, 'digital' keeps the probability vector in stored order while
'ground-rydberg' reverses it, so the weight of `k` is the squared magnitude of
amplitude `2^N - 1 - k`; in particular the ground-rydberg all-ground state
`[0,0,0,1]` on two qubits samples to 500 counts of '00'. -/
theorem dim2_matching_weight_order (rs : SimulationResults) (mb : Option String)
    (b : String) (k : Nat)
    (hres : resolveBasis rs mb = some b)
    (hb : b = "ground-rydberg" ∨ b = "digital")
    (h2 : rs.dim = 2) (hmatch : b = rs.basis_name)
    (hlen : (finalProbs rs).length = 2 ^ rs.size) (hk : k < 2 ^ rs.size) :
    (∃ w, sampleWeights rs mb = .ok (some w) ∧
      w.getD k 0 = (finalProbs rs).getD
        (if b = "digital" then k else 2 ^ rs.size - 1 - k) 0) ∧
    (∀ dist, Multinomial [1, 0, 0, 0] 500 dist →
      sample_final_state
        ⟨[[⟨0, 0⟩, ⟨0, 0⟩, ⟨0, 0⟩, ⟨1, 0⟩]], 2, 2, "ground-rydberg", none⟩
        (some "ground-rydberg") 500 dist = .ok [("00", 500)]) := by
  constructor
  · have hw : sampleWeights rs mb = .ok (some (if b = "digital" then finalProbs rs
        else (finalProbs rs).reverse)) := by
      rw [sampleWeights_valid rs mb b hres hb, if_pos h2, if_pos hmatch]
    refine ⟨_, hw, ?_⟩
    by_cases hd : b = "digital"
    · rw [if_pos hd, if_pos hd]
    · rw [if_neg hd, if_neg hd, getD_reverse _ _ (by rw [hlen]; exact hk), hlen]
  · intro dist hM
    obtain ⟨hlen4, hsum, hzero⟩ := hM
    obtain ⟨d0, d1, d2, d3, rfl⟩ : ∃ d0 d1 d2 d3, dist = [d0, d1, d2, d3] := by
      rcases dist with _ | ⟨d0, dist⟩
      · simp at hlen4
      rcases dist with _ | ⟨d1, dist⟩
      · simp at hlen4
      rcases dist with _ | ⟨d2, dist⟩
      · simp at hlen4
      rcases dist with _ | ⟨d3, dist⟩
      · simp at hlen4
      rcases dist with _ | ⟨d4, dist⟩
      · exact ⟨d0, d1, d2, d3, rfl⟩
      · simp at hlen4
    have hd1 : d1 = 0 := hzero 1 (by simp) rfl
    have hd2 : d2 = 0 := hzero 2 (by simp) rfl
    have hd3 : d3 = 0 := hzero 3 (by simp) rfl
    have hd0 : d0 = 500 := by
      have hs := hsum
      simp only [List.sum_cons, List.sum_nil, add_zero, hd1, hd2, hd3] at hs
      omega
    subst hd0
    subst hd1
    subst hd2
    subst hd3
    rfl

/-- Witness for C2: the scenario ResultSet itself at bitstring k = 0, whose
weight is the squared magnitude of amplitude 3. -/
theorem dim2_matching_weight_order_witness :
    ∃ w, sampleWeights
        ⟨[[⟨0, 0⟩, ⟨0, 0⟩, ⟨0, 0⟩, ⟨1, 0⟩]], 2, 2, "ground-rydberg", none⟩
        (some "ground-rydberg") = .ok (some w) ∧
      w.getD 0 0 = (finalProbs
        ⟨[[⟨0, 0⟩, ⟨0, 0⟩, ⟨0, 0⟩, ⟨1, 0⟩]], 2, 2, "ground-rydberg", none⟩).getD
          (if ("ground-rydberg" : String) = "digital" then 0 else 2 ^ 2 - 1 - 0) 0 :=
  (dim2_matching_weight_order _ (some "ground-rydberg") "ground-rydberg" 0 rfl
    (Or.inl rfl) rfl rfl (by decide) (by decide)).1

/-- C4 counterexample: with `N_samples = 0` the dim-2 basis-mismatch branch
returns the all-zero bitstring with an explicit zero count, so not every
returned count is positive. -/
theorem sample_zero_count_cex :
    sample_final_state ⟨[[⟨1, 0⟩, ⟨0, 0⟩]], 2, 1, "digital", none⟩
        (some "ground-rydberg") 0 [] = .ok [(zeroString 1, 0)] ∧
    allCountsPos (.ok [(zeroString 1, 0)]) = false :=
  ⟨rfl, rfl⟩

/-- C4 (amended with `1 ≤ N_samples`): every successful call, on a state of
the invariant length and any multinomial outcome, returns distinct '0'/'1'
keys of length `size`, strictly positive counts, and counts summing to
`N_samples`. -/
theorem sample_output_wellformed (rs : SimulationResults) (mb : Option String)
    (N_samples : Nat) (dist : List Nat) (w : Option (List ℚ))
    (l : List (String × Nat))
    (hns : 1 ≤ N_samples)
    (hlen : (finalProbs rs).length = rs.dim ^ rs.size)
    (hw : sampleWeights rs mb = .ok w)
    (hdist : ∀ v, w = some v → Multinomial v N_samples dist)
    (hres : sample_final_state rs mb N_samples dist = .ok l) :
    (l.map Prod.fst).Nodup ∧
    (∀ pr ∈ l, pr.1.length = rs.size ∧ (∀ c ∈ pr.1.data, c = '0' ∨ c = '1') ∧
      0 < pr.2) ∧
    (l.map Prod.snd).sum = N_samples := by
  cases w with
  | none =>
    rw [sample_eq_of_weights_none rs mb N_samples dist hw] at hres
    have hl : l = [(zeroString rs.size, N_samples)] := by
      simpa using hres.symm
    subst hl
    refine ⟨by simp, ?_, by simp⟩
    intro pr hpr
    rw [List.mem_singleton] at hpr
    subst hpr
    exact ⟨zeroString_length _, zeroString_chars _, hns⟩
  | some v =>
    obtain ⟨hlenM, hsum, _⟩ := hdist v rfl
    have hvlen : v.length = 2 ^ rs.size := sampleWeights_some_length rs mb v hw hlen
    rw [sample_eq_of_weights_some rs mb N_samples dist v hw] at hres
    have hl : l = assemble rs.size dist := by
      simpa using hres.symm
    subst hl
    have hdl : dist.length ≤ 2 ^ rs.size := by
      rw [hlenM, hvlen]
    refine ⟨assemble_keys_nodup _ _ hdl, ?_, by rw [assemble_sum, hsum]⟩
    intro pr hpr
    obtain ⟨i, hi, hne0, rfl⟩ := assemble_mem _ _ _ hpr
    refine ⟨binReprStr_length (lt_of_lt_of_le hi hdl), binReprStr_chars _ _, ?_⟩
    omega

/-- Witness for C4 (amended): dim 2, one atom, matching 'digital' basis,
drawing 5 samples into the first category. -/
theorem sample_output_wellformed_witness :
    (([((binReprStr 0 1 : String), 5)].map Prod.fst).Nodup ∧
      (∀ pr ∈ [((binReprStr 0 1 : String), 5)], pr.1.length = 1 ∧
        (∀ c ∈ pr.1.data, c = '0' ∨ c = '1') ∧ 0 < pr.2) ∧
      ([((binReprStr 0 1 : String), 5)].map Prod.snd).sum = 5) :=
  sample_output_wellformed ⟨[[⟨1, 0⟩, ⟨0, 0⟩]], 2, 1, "digital", none⟩
    (some "digital") 5 [5, 0] (some [1, 0]) [(binReprStr 0 1, 5)]
    (by norm_num) (by decide)
    (by
      have hp : finalProbs ⟨[[⟨1, 0⟩, ⟨0, 0⟩]], 2, 1, "digital", none⟩ = [1, 0] := by
        norm_num [finalProbs, Cplx.normSq]
      have h2 : (⟨[[⟨1, 0⟩, ⟨0, 0⟩]], 2, 1, "digital", none⟩ :
          SimulationResults).dim = 2 := rfl
      have hm : ("digital" : String) = (⟨[[⟨1, 0⟩, ⟨0, 0⟩]], 2, 1, "digital", none⟩ :
          SimulationResults).basis_name := rfl
      have hd : ("digital" : String) = "digital" := rfl
      rw [sampleWeights_valid _ (some "digital") "digital" rfl (Or.inr rfl),
        if_pos h2, if_pos hm, if_pos hd, hp])
    (fun v hv => by cases hv; decide) rfl

/-- C7 counterexample: a tuple of observables is an array-like sequence, yet
`expect` raises TypeError on it (the `isinstance` check admits only lists and
numpy arrays). -/
theorem expect_tuple_cex :
    isArrayLikeSequence (ObsArg.tuple []) = true ∧
    expect (fun _ _ => ⟨0, 0⟩) ⟨[], 2, 1, "digital", none⟩ (ObsArg.tuple [])
      = .error .typeError :=
  ⟨rfl, rfl⟩

/-- C7 (amended): `expect` raises TypeError if and only if `obs_list` is not a
Python list or numpy array — tuples and all other objects are rejected. -/
theorem expect_typeError_iff (ev : Observable → List Cplx → Cplx)
    (rs : SimulationResults) (obs_list : ObsArg) :
    expect ev rs obs_list = .error .typeError
      ↔ isListOrNdarray obs_list = false := by
  cases obs_list with
  | pyList l =>
    constructor
    · intro h
      exfalso
      replace h : expectChecked ev rs l = .error .typeError := h
      unfold expectChecked at h
      by_cases hs : ∀ obs ∈ l, obs.shape = (rs.dim ^ rs.size, rs.dim ^ rs.size)
      · rw [if_pos hs] at h
        exact absurd h (by simp)
      · rw [if_neg hs] at h
        exact absurd h (by simp)
    · intro h
      cases h
  | ndarray l =>
    constructor
    · intro h
      exfalso
      replace h : expectChecked ev rs l = .error .typeError := h
      unfold expectChecked at h
      by_cases hs : ∀ obs ∈ l, obs.shape = (rs.dim ^ rs.size, rs.dim ^ rs.size)
      · rw [if_pos hs] at h
        exact absurd h (by simp)
      · rw [if_neg hs] at h
        exact absurd h (by simp)
    · intro h
      cases h
  | tuple l =>
    constructor
    · intro _
      rfl
    · intro _
      rfl
  | other =>
    constructor
    · intro _
      rfl
    · intro _
      rfl

/-- C8: `expect` raises ValueError whenever some observable has a shape other
than `(dim ^ size, dim ^ size)`, and with all shapes correct it returns one
list of expectation values per observable with one entry per time step. -/
theorem expect_shape_validation (ev : Observable → List Cplx → Cplx)
    (rs : SimulationResults) (l : List Observable) (arg : ObsArg)
    (harg : arg = ObsArg.pyList l ∨ arg = ObsArg.ndarray l) :
    ((∃ obs ∈ l, obs.shape ≠ (rs.dim ^ rs.size, rs.dim ^ rs.size)) →
      expect ev rs arg = .error .valueError) ∧
    ((∀ obs ∈ l, obs.shape = (rs.dim ^ rs.size, rs.dim ^ rs.size)) →
      expect ev rs arg = .ok (l.map fun q => rs.states.map (ev q))) := by
  have hexp : expect ev rs arg = expectChecked ev rs l := by
    rcases harg with rfl | rfl <;> rfl
  rw [hexp]
  constructor
  · rintro ⟨obs, hobs, hne⟩
    unfold expectChecked
    rw [if_neg (fun hall => hne (hall obs hobs))]
  · intro hall
    unfold expectChecked
    rw [if_pos hall]

/-- Witness for C8: a single correctly-shaped observable on one dim-2 atom and
one stored time step. -/
theorem expect_shape_validation_witness :
    expect (fun _ _ => (⟨0, 0⟩ : Cplx)) ⟨[[⟨1, 0⟩, ⟨0, 0⟩]], 2, 1, "digital", none⟩
        (ObsArg.pyList [⟨(2, 2)⟩])
      = .ok [[⟨0, 0⟩]] :=
  (expect_shape_validation (fun _ _ => (⟨0, 0⟩ : Cplx))
    ⟨[[⟨1, 0⟩, ⟨0, 0⟩]], 2, 1, "digital", none⟩ [⟨(2, 2)⟩] _ (Or.inl rfl)).2
    (by decide)
